import Mathlib

/-!
Verification of the pictex layout/text pipeline.

Shallow embedding of the parts of `pictex` (a declarative image-composition
library) that the specification's claims are about, together with proofs
settling each claim:

* `TextShaper._wrap_line_to_width` (greedy word wrap) — `tokenize`,
  `wrapLoop`, `wrapLineToWidth`;
* `TextShaper._split_line_in_runs` / `_get_fallback_font_for_glyph`
  (font-fallback run segmentation) — `splitLoop`, `splitLineInRuns`,
  `getFallbackTypefaceForGlyph`;
* `Node._compute_styles` (style inheritance) — `computeStyles`;
* `SizeResolver` (size-mode resolution with its error cases) — `resolveAxis`;
* builder argument validation (`padding`, `margin`, `border_radius`,
  `aspect_ratio`) — `paddingBuilder`, `marginBuilder`, `borderRadiusBuilder`,
  `aspectRatioBuilder`;
* `LayoutEngine._apply_translate_transform` (post-layout translate pass) —
  `processChild`, `applyTranslateTransform`.

Machine floats of the source are modelled as exact rationals; Python strings
as `List Char`.  Python whitespace (the `\\s` class and `str.strip`) is
modelled by the six ASCII whitespace characters, which is the fragment the
claims exercise.
-/

namespace Pictex

/-! ## Word wrap: `TextShaper._wrap_line_to_width`

The source tokenizes a line with `re.findall(r'\\S+|\\s+', text)` — maximal
runs of whitespace / non-whitespace characters — then greedily accumulates
tokens into candidate lines, flushing (with `str.strip`) whenever adding the
next token would exceed `max_width`, except that the first token of a
candidate line is always accepted.  If no split happened (exactly one
candidate line) the original text is returned untrimmed. -/

/-- Python whitespace (`\s` / `str.strip`) restricted to ASCII:
space, tab, newline, carriage return, vertical tab, form feed. -/
def isWS (c : Char) : Bool :=
  c == ' ' || c == '\t' || c == '\n' || c == '\r' ||
  c == Char.ofNat 11 || c == Char.ofNat 12

/-- Embedding of `re.findall(r'\S+|\s+', text)`: the partition of a string
into maximal runs of characters of equal whitespace-class, in order. -/
def tokenize : List Char → List (List Char)
  | [] => []
  | c :: cs =>
    match tokenize cs with
    | [] => [[c]]
    | [] :: ts => [c] :: [] :: ts
    | (d :: t) :: ts =>
      if isWS c = isWS d then (c :: d :: t) :: ts else [c] :: (d :: t) :: ts

/-- Whitespace-class of a token: the class of its head (tokens produced by
`tokenize` are nonempty and homogeneous). -/
def tokWS : List Char → Bool
  | [] => false
  | c :: _ => isWS c

/-- Python `str.strip()`: drop leading and trailing whitespace. -/
def strip (l : List Char) : List Char :=
  ((l.dropWhile isWS).reverse.dropWhile isWS).reverse

/-- The accumulation loop of `_wrap_line_to_width`, on token lists.
State: remaining tokens, current candidate line (as its token list), current
width.  A flush emits the candidate line; the trailing `str.strip` and join
are applied by the wrapper `wrapLineToWidth`.  The first token of a candidate
line is accepted regardless of its width; any other token is accepted exactly
when `current_width + token_width <= max_width`. -/
def wrapLoop (w : List Char → ℚ) (maxW : ℚ) :
    List (List Char) → List (List Char) → ℚ → List (List (List Char))
  | [], curr, _ => if curr = [] then [] else [curr]
  | t :: ts, curr, cw =>
    if curr = [] then wrapLoop w maxW ts [t] (w t)
    else if cw + w t ≤ maxW then wrapLoop w maxW ts (curr ++ [t]) (cw + w t)
    else curr :: wrapLoop w maxW ts [t] (w t)

/-- Embedding of `TextShaper._wrap_line_to_width`.  `w` is the token-width measurement
(`primary_font.measureText`).  Candidate lines are flushed stripped; if the
result is a single line the original text is returned untouched; an empty
token list yields `['']`. -/
def wrapLineToWidth (w : List Char → ℚ) (text : List Char) (maxW : ℚ) :
    List (List Char) :=
  let tokens := tokenize text
  if tokens = [] then [[]]
  else
    let lines := (wrapLoop w maxW tokens [] 0).map (fun seg => strip seg.flatten)
    if lines.length = 1 then [text]
    else if lines = [] then [[]] else lines

/-- The wrap loop as the specification of claim C1 words it: a token is
accumulated whenever `current_width + token_width <= max_width` OR the token
is pure whitespace; only a non-whitespace token that would exceed the width
flushes the candidate line.  This definition follows the claim text, for
comparison with `wrapLoop` (the source). -/
def wrapLoopSpecC1 (w : List Char → ℚ) (maxW : ℚ) :
    List (List Char) → List (List Char) → ℚ → List (List (List Char))
  | [], curr, _ => if curr = [] then [] else [curr]
  | t :: ts, curr, cw =>
    if curr = [] then wrapLoopSpecC1 w maxW ts [t] (w t)
    else if cw + w t ≤ maxW ∨ tokWS t = true then
      wrapLoopSpecC1 w maxW ts (curr ++ [t]) (cw + w t)
    else curr :: wrapLoopSpecC1 w maxW ts [t] (w t)

/-- Claim C1's version of `_wrap_line_to_width` (whitespace tokens always
accepted), with the same trimming and single-line behaviour as the source. -/
def wrapLineSpecC1 (w : List Char → ℚ) (text : List Char) (maxW : ℚ) :
    List (List Char) :=
  let tokens := tokenize text
  if tokens = [] then [[]]
  else
    let lines := (wrapLoopSpecC1 w maxW tokens [] 0).map (fun seg => strip seg.flatten)
    if lines.length = 1 then [text]
    else if lines = [] then [[]] else lines

/-- One step of the amended wrap description: the first token of a candidate
line is always accepted; any other token is accepted exactly when the running
width stays within `max_width`, and otherwise — whitespace or not — the
candidate line is flushed and a new one starts with that token. -/
def wrapStepAmended (w : List Char → ℚ) (maxW : ℚ)
    (s : List (List (List Char)) × List (List Char) × ℚ) (t : List Char) :
    List (List (List Char)) × List (List Char) × ℚ :=
  let (lines, curr, cw) := s
  if curr = [] then (lines, [t], w t)
  else if cw + w t ≤ maxW then (lines, curr ++ [t], cw + w t)
  else (lines ++ [curr], [t], w t)

/-- The amended wrap description of claim C1 as a fold over the tokens. -/
def wrapLineAmendedC1 (w : List Char → ℚ) (text : List Char) (maxW : ℚ) :
    List (List Char) :=
  let tokens := tokenize text
  if tokens = [] then [[]]
  else
    let st := tokens.foldl (wrapStepAmended w maxW) ([], [], 0)
    let segs := if st.2.1 = [] then st.1 else st.1 ++ [st.2.1]
    let lines := segs.map (fun seg => strip seg.flatten)
    if lines.length = 1 then [text]
    else if lines = [] then [[]] else lines

/-- Token width used for the concrete counterexamples: the number of
characters (every character one unit wide). -/
def lenW (t : List Char) : ℚ := (t.length : ℚ)

/-- Tokens that are not pure whitespace, in order: the word sequence of a
string (tokens alternate between whitespace and non-whitespace runs). -/
def nonWSTokens (s : List Char) : List (List Char) :=
  (tokenize s).filter (fun t => !tokWS t)

/-- A whitespace-homogeneous token: every character has the class of the
head. -/
def homogTok (t : List Char) : Prop := ∀ c ∈ t, isWS c = tokWS t

/-- A token as produced by `tokenize`: nonempty and homogeneous. -/
def goodTok (t : List Char) : Prop := t ≠ [] ∧ homogTok t

/-- A token list as produced by `tokenize`: good tokens with alternating
whitespace-class. -/
def goodTokens (ts : List (List Char)) : Prop :=
  (∀ t ∈ ts, goodTok t) ∧ ts.Chain' (fun a b => tokWS a ≠ tokWS b)

/-- Token-level counterpart of `strip`: drop leading and trailing
whitespace tokens. -/
def stripTokens (ts : List (List Char)) : List (List Char) :=
  ((ts.dropWhile tokWS).reverse.dropWhile tokWS).reverse

/-! ## Run segmentation: `TextShaper._split_line_in_runs`

Fonts differ only by their typeface here (`_get_fallback_font_for_glyph`
clones the primary font and swaps the typeface), so a font is modelled by
its typeface id.  `TypefaceLoader.load_for_glyph` is absent from the
sources (only its caller is); per the spec it is a platform lookup that may
or may not find a typeface for a codepoint, modelled as an abstract
`Char → Option` function in the environment. -/

/-- The font environment of a `TextShaper`: the primary typeface, the
per-typeface glyph-support test (`Typeface.unicharToGlyph(ord(c)) != 0`),
the configured fallback typefaces in order, and the system lookup.
The `system` field is modelled from the spec: `TypefaceLoader.load_for_glyph`
is missing from the sources; the spec describes it as a platform font-matcher
query by codepoint returning a typeface or nothing. -/
structure FontEnv where
  primaryTf : ℕ
  supports : ℕ → Char → Bool
  fallbacks : List ℕ
  system : Char → Option ℕ

/-- Embedding of `TextShaper._get_fallback_font_for_glyph`, at the typeface
level: first configured fallback typeface supporting the codepoint, else the
system match, else the primary font itself. -/
def getFallbackTypefaceForGlyph (env : FontEnv) (c : Char) : ℕ :=
  match env.fallbacks.find? (fun tf => env.supports tf c) with
  | some tf => tf
  | none =>
    match env.system c with
    | some tf => tf
    | none => env.primaryTf

/-- A `TextRun`: a substring together with the typeface of its resolved
font. -/
structure TextRun where
  text : List Char
  tf : ℕ
deriving DecidableEq

/-- The loop of `TextShaper._split_line_in_runs`.  State: remaining
characters, accumulated runs, current primary-font run text.  A character
supported by the primary typeface extends the current run; otherwise the
current run is flushed, the fallback font for the character is resolved, and
the character either extends the last run (same typeface) or starts a new
one. -/
def splitLoop (env : FontEnv) :
    List Char → List TextRun → List Char → List TextRun
  | [], runs, curr =>
    if curr = [] then runs else runs ++ [⟨curr, env.primaryTf⟩]
  | c :: cs, runs, curr =>
    if env.supports env.primaryTf c then
      splitLoop env cs runs (curr ++ [c])
    else
      let runs1 := if curr = [] then runs else runs ++ [⟨curr, env.primaryTf⟩]
      let ftf := getFallbackTypefaceForGlyph env c
      match runs1.getLast? with
      | some last =>
        if last.tf = ftf then
          splitLoop env cs (runs1.dropLast ++ [⟨last.text ++ [c], ftf⟩]) []
        else
          splitLoop env cs (runs1 ++ [⟨[c], ftf⟩]) []
      | none => splitLoop env cs (runs1 ++ [⟨[c], ftf⟩]) []

/-- Embedding of `TextShaper._split_line_in_runs`. -/
def splitLineInRuns (env : FontEnv) (line : List Char) : List TextRun :=
  splitLoop env line [] []

/-- The characters of a run list, each paired with the typeface of the run
containing it, in order. -/
def runChars (runs : List TextRun) : List (Char × ℕ) :=
  (runs.map (fun r => r.text.map (fun c => (c, r.tf)))).flatten

/-- The typeface the segmentation resolves for one codepoint: the primary
typeface if it supports the codepoint, the fallback resolution otherwise. -/
def charTf (env : FontEnv) (c : Char) : ℕ :=
  if env.supports env.primaryTf c then env.primaryTf
  else getFallbackTypefaceForGlyph env c

/-- Concrete environment for the grapheme-cluster counterexample: typeface 0
is primary and supports only the letter e; typeface 7 is the single
configured fallback and supports only the combining acute accent (U+0301);
the system lookup finds nothing. -/
def envC3 : FontEnv where
  primaryTf := 0
  supports := fun tf c => (tf == 0 && c == 'e') || (tf == 7 && c == Char.ofNat 769)
  fallbacks := [7]
  system := fun _ => none

/-- The two codepoints of the single grapheme cluster used against claim C3:
the letter e followed by the combining acute accent U+0301. -/
def clusterC3 : List Char := ['e', Char.ofNat 769]

/-- Concrete environment for the fallback-totality witness: no fallback or
system typeface supports anything. -/
def envC7 : FontEnv where
  primaryTf := 3
  supports := fun _ _ => false
  fallbacks := [1, 2]
  system := fun _ => none

/-! ## Style inheritance: `Node._compute_styles`

The per-property record is `StyleProperty` from `models/public/style_property.py`,
which is not among the sources (its users `Style.is_explicit`,
`Style.is_inheritable` and `Node._compute_styles` are).
Modelled from the spec: a property carries a value, a was-explicitly-set
flag, and an is-inheritable flag; a property constructed with a default and
never set keeps the default value with the flag unset.  Property values are
abstracted to integers and fields to naturals. -/

/-- Modelled from the spec: the `StyleProperty` record of
`models/public/style_property.py` (missing from the sources) — a value plus
the was-explicitly-set and is-inheritable flags. -/
structure StyleProperty where
  value : ℤ
  wasSet : Bool
  inheritable : Bool
deriving DecidableEq

/-- Embedding of `Node._compute_styles`: start from a copy of the raw style;
for every field that is inheritable and not explicitly set, take the
parent's computed property; a node without a parent keeps its raw style. -/
def computeStyles (raw : ℕ → StyleProperty) (parent : Option (ℕ → StyleProperty)) :
    ℕ → StyleProperty :=
  match parent with
  | none => raw
  | some p => fun f =>
    if (raw f).inheritable = false then raw f
    else if (raw f).wasSet = true then raw f
    else p f

/-- Concrete raw style for the C4 witness: every field unset, inheritable,
with default value 5. -/
def rawC4 : ℕ → StyleProperty := fun _ => ⟨5, false, true⟩

/-- Concrete parent computed style for the C4 witness: value 9 everywhere. -/
def parentC4 : ℕ → StyleProperty := fun _ => ⟨9, true, true⟩

/-! ## Size resolution: `SizeResolver`

The live render path (`Node.content_width` / `Node.content_height`) resolves
sizes through `SizeResolver`; this embeds `resolve_width` / `resolve_height`
and the helpers they call, axis-parametrised exactly as the source.
Intrinsic measurement and the background image are abstract inputs carried
on the node. -/

inductive SizeMode where
  | absolute
  | percent
  | auto
  | fitContent
  | fillAvailable
  | fitBackgroundImage
deriving DecidableEq

/-- A `SizeValue`: a sizing mode plus its numeric payload (meaningful for
absolute and percent). -/
structure SizeValue where
  mode : SizeMode
  value : ℚ
deriving DecidableEq

inductive Axis where
  | width
  | height
deriving DecidableEq

/-- A node as seen by `SizeResolver`: the computed width/height styles,
padding and border (spacing), any forced size, the intrinsic content
measurements, the background-image dimensions when present and loadable, and
the parent. -/
inductive SNode where
  | mk (widthStyle heightStyle : Option SizeValue)
       (padLeft padRight padTop padBottom : ℚ)
       (borderWidth : ℚ)
       (forcedWidth forcedHeight : Option ℚ)
       (intrinsicWidth intrinsicHeight : ℚ)
       (bgImage : Option (ℚ × ℚ))
       (parent : Option SNode)

def SNode.widthStyle : SNode → Option SizeValue
  | .mk ws _ _ _ _ _ _ _ _ _ _ _ _ => ws

def SNode.heightStyle : SNode → Option SizeValue
  | .mk _ hs _ _ _ _ _ _ _ _ _ _ _ => hs

def SNode.parentOf : SNode → Option SNode
  | .mk _ _ _ _ _ _ _ _ _ _ _ _ par => par

def SNode.forcedOn : SNode → Axis → Option ℚ
  | .mk _ _ _ _ _ _ _ fw _ _ _ _ _, .width => fw
  | .mk _ _ _ _ _ _ _ _ fh _ _ _ _, .height => fh

def SNode.styleOn : SNode → Axis → Option SizeValue
  | n, .width => n.widthStyle
  | n, .height => n.heightStyle

/-- Whether a size style is content-dependent in the sense of
`_get_parent_percent_axis_size`: unset, fit-content, or auto. -/
def contentDependent : Option SizeValue → Bool
  | none => true
  | some sv =>
    match sv.mode with
    | .fitContent => true
    | .auto => true
    | _ => false

/-- Embedding of `SizeResolver.resolve_width` (forced size first, then the
style-driven resolution of `_resolve_width_from_style` / `_get_axis_size`):
absolute subtracts the horizontal spacing, percent consults the parent and
errors when the parent is missing or its width style is content-dependent,
fit-content and auto take the intrinsic width, fill-available errors like
percent and otherwise stands for the intrinsic placeholder, and
fit-background-image requires a loadable background image. -/
def resolveWidth : SNode → Except String ℚ
  | SNode.mk ws _hs pl pr _pt _pb bw fw _fh iw _ih bg par =>
    match fw with
    | some f => .ok (max 0 (f - (pl + pr + bw * 2)))
    | none =>
      match ws with
      | none => .ok iw
      | some sv =>
        Except.map (fun b => max 0 b)
          (match sv.mode, par with
            | SizeMode.absolute, _ => .ok (sv.value - (pl + pr + bw * 2))
            | SizeMode.percent, none =>
              .error "Cannot use percent size on a root element without a parent."
            | SizeMode.percent, some p =>
              if contentDependent p.widthStyle then
                .error "Cannot use percent size if parent element has fit-content size."
              else
                Except.map (fun pc => pc * (sv.value / 100) - (pl + pr + bw * 2))
                  (resolveWidth p)
            | SizeMode.fitContent, _ => .ok iw
            | SizeMode.auto, _ => .ok iw
            | SizeMode.fillAvailable, none =>
              .error "Cannot use fill-available size on a root element without a parent."
            | SizeMode.fillAvailable, some p =>
              if contentDependent p.widthStyle then
                .error "Cannot use fill-available size if parent element has fit-content size."
              else .ok iw
            | SizeMode.fitBackgroundImage, _ =>
              match bg with
              | none =>
                .error "Cannot use fit-background-image on an element without a background image."
              | some dims => .ok (dims.1 - (pl + pr + bw * 2)))

/-- Embedding of `SizeResolver.resolve_height`: the same code as
`resolve_width` instantiated at the vertical axis, as in the source. -/
def resolveHeight : SNode → Except String ℚ
  | SNode.mk _ws hs _pl _pr pt pb bw _fw fh _iw ih bg par =>
    match fh with
    | some f => .ok (max 0 (f - (pt + pb + bw * 2)))
    | none =>
      match hs with
      | none => .ok ih
      | some sv =>
        Except.map (fun b => max 0 b)
          (match sv.mode, par with
            | SizeMode.absolute, _ => .ok (sv.value - (pt + pb + bw * 2))
            | SizeMode.percent, none =>
              .error "Cannot use percent size on a root element without a parent."
            | SizeMode.percent, some p =>
              if contentDependent p.heightStyle then
                .error "Cannot use percent size if parent element has fit-content size."
              else
                Except.map (fun pc => pc * (sv.value / 100) - (pt + pb + bw * 2))
                  (resolveHeight p)
            | SizeMode.fitContent, _ => .ok ih
            | SizeMode.auto, _ => .ok ih
            | SizeMode.fillAvailable, none =>
              .error "Cannot use fill-available size on a root element without a parent."
            | SizeMode.fillAvailable, some p =>
              if contentDependent p.heightStyle then
                .error "Cannot use fill-available size if parent element has fit-content size."
              else .ok ih
            | SizeMode.fitBackgroundImage, _ =>
              match bg with
              | none =>
                .error "Cannot use fit-background-image on an element without a background image."
              | some dims => .ok (dims.2 - (pt + pb + bw * 2)))

/-- Axis dispatch, as `SizeResolver` clients do via `resolve_width` /
`resolve_height`. -/
def resolveAxis (n : SNode) : Axis → Except String ℚ
  | .width => resolveWidth n
  | .height => resolveHeight n

/-- Whether a resolution ended in the error branch. -/
def isSizeError : Except String ℚ → Bool
  | .error _ => true
  | .ok _ => false

/-- Concrete parent for the C5 witness: fit-content width, no parent. -/
def parentC5 : SNode :=
  .mk (some ⟨.fitContent, 0⟩) none 0 0 0 0 0 none none 40 20 none none

/-- Concrete node for the C5 witness: width 50 percent inside a fit-content
parent. -/
def nodeC5 : SNode :=
  .mk (some ⟨.percent, 50⟩) none 0 0 0 0 0 none none 10 10 none (some parentC5)

/-! ## Builder validation: `Stylable.padding` / `margin` / `border_radius`,
`WithSizeMixin.aspect_ratio`

Each builder either records a parsed value in the style or raises at the
call site; the raise kind is the payload of the `Except`. -/

inductive BuilderError where
  | typeError
  | valueError
deriving DecidableEq

/-- Embedding of `Stylable.padding`: one value for all four sides, two for
vertical/horizontal, four for top/right/bottom/left, anything else raises
`TypeError`.  The result is the `Padding(top, right, bottom, left)` tuple. -/
def paddingBuilder : List ℚ → Except BuilderError (ℚ × ℚ × ℚ × ℚ)
  | [a] => .ok (a, a, a, a)
  | [v, h] => .ok (v, h, v, h)
  | [t, r, b, l] => .ok (t, r, b, l)
  | _ => .error .typeError

/-- Embedding of `Stylable.margin`: same argument shapes as `padding`. -/
def marginBuilder : List ℚ → Except BuilderError (ℚ × ℚ × ℚ × ℚ)
  | [a] => .ok (a, a, a, a)
  | [v, h] => .ok (v, h, v, h)
  | [t, r, b, l] => .ok (t, r, b, l)
  | _ => .error .typeError

inductive RadiusMode where
  | absolute
  | percent
deriving DecidableEq

/-- A parsed `BorderRadiusValue`. -/
structure BorderRadiusValue where
  value : ℚ
  mode : RadiusMode
deriving DecidableEq

/-- An argument passed to `border_radius`: a number, a percent string, or
anything else (an unsupported type). -/
inductive RadiusArg where
  | px (q : ℚ)
  | pctStr (q : ℚ)
  | other
deriving DecidableEq

/-- Embedding of `Stylable._parse_radius_value`. -/
def parseRadiusValue : RadiusArg → Except BuilderError BorderRadiusValue
  | .pctStr q => .ok ⟨q, .percent⟩
  | .px q => .ok ⟨q, .absolute⟩
  | .other => .error .typeError

/-- Embedding of `Stylable.border_radius`: one, two, or four parsed values;
any other argument count raises `TypeError`. -/
def borderRadiusBuilder (args : List RadiusArg) :
    Except BuilderError (BorderRadiusValue × BorderRadiusValue × BorderRadiusValue × BorderRadiusValue) :=
  match args with
  | [a] => do
    let v ← parseRadiusValue a
    return (v, v, v, v)
  | [a, b] => do
    let v1 ← parseRadiusValue a
    let v2 ← parseRadiusValue b
    return (v1, v2, v1, v2)
  | [a, b, c, d] => do
    let tl ← parseRadiusValue a
    let tr ← parseRadiusValue b
    let br ← parseRadiusValue c
    let bl ← parseRadiusValue d
    return (tl, tr, br, bl)
  | _ => .error .typeError

/-- An argument passed to `aspect_ratio`: a number; a string with a slash
splitting into exactly two numeric parts (`strFrac`); a string with a slash
splitting into some other number of parts, or with non-numeric parts
(`strFracBad`); a slash-free numeric string; or a slash-free non-numeric
string. -/
inductive RatioArg where
  | num (q : ℚ)
  | strFrac (a b : ℚ)
  | strFracBad
  | strNum (q : ℚ)
  | strBad
deriving DecidableEq

/-- Embedding of `WithSizeMixin.aspect_ratio`: strings are parsed first
(division by zero and malformed fractions raise `ValueError`), then a
non-positive ratio raises `ValueError`; otherwise the ratio is recorded. -/
def aspectRatioBuilder : RatioArg → Except BuilderError ℚ
  | .num q => if q ≤ 0 then .error .valueError else .ok q
  | .strFrac a b =>
    if b = 0 then .error .valueError
    else if a / b ≤ 0 then .error .valueError else .ok (a / b)
  | .strFracBad => .error .valueError
  | .strNum q => if q ≤ 0 then .error .valueError else .ok q
  | .strBad => .error .valueError

/-! ## Translate transform: `LayoutEngine._apply_translate_transform`

The pass runs after the flexbox solve and the fixed-position correction; it
walks the children of the root, resolving each configured transform against
the node's own border box and adding the resulting offset — together with
the offset inherited from ancestors — to the node's layout result and,
through the recursion, to all of its descendants. -/

/-- A translate component as `_compute_translate_offset` sees it: a number,
a percent string, or any other string. -/
inductive TransValue where
  | px (v : ℚ)
  | pctStr (p : ℚ)
  | other

/-- Embedding of `LayoutEngine._compute_translate_offset`. -/
def computeTranslateOffset : Option TransValue → ℚ → ℚ
  | none, _ => 0
  | some (.px v), _ => v
  | some (.pctStr p), size => size * p / 100
  | some .other, _ => 0

/-- The per-node data the transform pass reads and writes: the configured
transform, the node's own border-box dimensions, and the layout-result
offset accumulated so far (from the fixed-position pass). -/
structure TNodeData where
  transform : Option (Option TransValue × Option TransValue)
  boxW : ℚ
  boxH : ℚ
  offX : ℚ
  offY : ℚ

mutual
inductive TTree where
  | node : TNodeData → TForest → TTree
inductive TForest where
  | nil : TForest
  | cons : TTree → TForest → TForest
end

/-- Embedding of `LayoutEngine._apply_offset_to_layout_result`: add the
offset to the stored layout-result offset, skipping the update when the
offset is zero. -/
def applyOffsetD (d : TNodeData) (dx dy : ℚ) : TNodeData :=
  if dx = 0 ∧ dy = 0 then d
  else { d with offX := d.offX + dx, offY := d.offY + dy }

mutual
/-- Embedding of the body of `LayoutEngine._apply_translate_transform` for
one child: with a configured transform, resolve it against the child's own
border box, add the inherited offset, apply, and recurse with the new
accumulator; without one, apply and pass the inherited offset unchanged. -/
def processChild (px py : ℚ) : TTree → TTree
  | .node d f =>
    match d.transform with
    | some t =>
      let dx := px + computeTranslateOffset t.1 d.boxW
      let dy := py + computeTranslateOffset t.2 d.boxH
      .node (applyOffsetD d dx dy) (processForest dx dy f)
    | none => .node (applyOffsetD d px py) (processForest px py f)
def processForest (px py : ℚ) : TForest → TForest
  | .nil => .nil
  | .cons t f => .cons (processChild px py t) (processForest px py f)
end

/-- Embedding of `LayoutEngine._apply_translate_transform` as called from
`compute_layout`: the pass starts at the root's children with zero inherited
offset; the root itself is not modified. -/
def applyTranslateTransform : TTree → TTree
  | .node d f => .node d (processForest 0 0 f)

/-- The offset a node's own transform contributes, written as claim C9 words
it: a numeric component contributes exactly that many pixels, a percent
component contributes p/100 times the node's own border-box dimension on
that axis, an absent or malformed component contributes nothing. -/
def specLocal (d : TNodeData) : ℚ × ℚ :=
  match d.transform with
  | none => (0, 0)
  | some t =>
    ((match t.1 with
      | none => 0
      | some (.px v) => v
      | some (.pctStr p) => p / 100 * d.boxW
      | some .other => 0),
     (match t.2 with
      | none => 0
      | some (.px v) => v
      | some (.pctStr p) => p / 100 * d.boxH
      | some .other => 0))

mutual
/-- The transform pass as claim C9 describes it: every node below the root
receives, added onto its stored offset, the sum of the `specLocal`
contributions of the nodes on the path from the root (exclusive) down to and
including itself. -/
def specChild (accx accy : ℚ) : TTree → TTree
  | .node d f =>
    let a := (accx + (specLocal d).1, accy + (specLocal d).2)
    .node { d with offX := d.offX + a.1, offY := d.offY + a.2 }
      (specForest a.1 a.2 f)
def specForest (accx accy : ℚ) : TForest → TForest
  | .nil => .nil
  | .cons t f => .cons (specChild accx accy t) (specForest accx accy f)
end

/-- The whole-tree statement of claim C9's description. -/
def specTranslateTransform : TTree → TTree
  | .node d f => .node d (specForest 0 0 f)

/-- Concrete inputs for the wrap counterexample and witnesses. -/
def txtC1 : List Char := ['a', ' ', ' ', ' ', 'b']

def txtC2a : List Char := [' ', 'h', 'i', ' ']

def txtC2b : List Char := ['a', 'a', ' ', 'b', 'b']

/-! ## Tokenizer lemmas -/

theorem tokenize_flatten (l : List Char) : (tokenize l).flatten = l := by
  induction l with
  | nil => rfl
  | cons c cs ih =>
    rw [tokenize]
    rcases h : tokenize cs with _ | ⟨t, ts⟩
    · rw [h] at ih
      simp at ih
      simp [ih]
    · rw [h] at ih
      rcases t with _ | ⟨d, t⟩
      · simpa using ih
      · by_cases hws : isWS c = isWS d
        · dsimp only
          simp only [hws, if_pos rfl]
          simpa using ih
        · dsimp only
          rw [if_neg hws]
          simpa using ih

theorem tokenize_ne_nil (l : List Char) : ∀ t ∈ tokenize l, t ≠ [] := by
  induction l with
  | nil => intro t ht; simp [tokenize] at ht
  | cons c cs ih =>
    intro t ht
    rw [tokenize] at ht
    rcases h : tokenize cs with _ | ⟨u, ts⟩
    · rw [h] at ht; simp at ht; simp [ht]
    · rw [h] at ht
      rcases u with _ | ⟨d, u⟩
      · exact absurd rfl (ih [] (h ▸ List.mem_cons_self _ _))
      · dsimp only at ht
        by_cases hws : isWS c = isWS d
        · rw [if_pos hws] at ht
          rcases List.mem_cons.mp ht with rfl | hmem
          · simp
          · exact ih t (h ▸ List.mem_cons_of_mem _ hmem)
        · rw [if_neg hws] at ht
          rcases List.mem_cons.mp ht with rfl | hmem
          · simp
          · exact ih t (h ▸ hmem)

theorem tokenize_homog (l : List Char) : ∀ t ∈ tokenize l, homogTok t := by
  induction l with
  | nil => intro t ht; simp [tokenize] at ht
  | cons c cs ih =>
    intro t ht
    rw [tokenize] at ht
    rcases h : tokenize cs with _ | ⟨u, ts⟩
    · rw [h] at ht; simp at ht
      intro x hx
      rw [ht] at hx
      simp at hx
      simp [hx, ht, tokWS]
    · rw [h] at ht
      rcases u with _ | ⟨d, u⟩
      · exact absurd rfl (tokenize_ne_nil cs [] (h ▸ List.mem_cons_self _ _))
      · dsimp only at ht
        by_cases hws : isWS c = isWS d
        · rw [if_pos hws] at ht
          rcases List.mem_cons.mp ht with rfl | hmem
          · have hd : homogTok (d :: u) := ih (d :: u) (h ▸ List.mem_cons_self _ _)
            intro x hx
            rcases List.mem_cons.mp hx with rfl | hx2
            · rfl
            · have := hd x hx2
              simp only [tokWS] at this ⊢
              rw [this, ← hws]
          · exact ih t (h ▸ List.mem_cons_of_mem _ hmem)
        · rw [if_neg hws] at ht
          rcases List.mem_cons.mp ht with rfl | hmem
          · intro x hx; simp at hx; simp [hx, tokWS]
          · exact ih t (h ▸ hmem)

theorem tokenize_chain (l : List Char) :
    (tokenize l).Chain' (fun a b => tokWS a ≠ tokWS b) := by
  induction l with
  | nil => simp [tokenize]
  | cons c cs ih =>
    rw [tokenize]
    rcases h : tokenize cs with _ | ⟨u, ts⟩
    · simp
    · rw [h] at ih
      rcases u with _ | ⟨d, u⟩
      · exact absurd rfl (tokenize_ne_nil cs [] (h ▸ List.mem_cons_self _ _))
      · dsimp only
        by_cases hws : isWS c = isWS d
        · rw [if_pos hws]
          rw [List.chain'_cons'] at ih ⊢
          refine ⟨fun y hy => ?_, ih.2⟩
          have := ih.1 y hy
          simpa [tokWS, hws] using this
        · rw [if_neg hws]
          refine List.chain'_cons'.mpr ⟨fun y hy => ?_, ih⟩
          simp only [List.head?_cons, Option.mem_def, Option.some.injEq] at hy
          subst hy
          simp [tokWS, hws]

theorem goodTokens_tokenize (l : List Char) : goodTokens (tokenize l) :=
  ⟨fun t ht => ⟨tokenize_ne_nil l t ht, tokenize_homog l t ht⟩, tokenize_chain l⟩

theorem goodTokens_tail {t : List Char} {ts : List (List Char)}
    (h : goodTokens (t :: ts)) : goodTokens ts :=
  ⟨fun u hu => h.1 u (List.mem_cons_of_mem _ hu), (List.Chain'.tail h.2 : _)⟩

theorem tokenize_token_append (t rest : List Char) (ht : t ≠ []) (hh : homogTok t)
    (hhead : ∀ u ∈ (tokenize rest).head?, tokWS u ≠ tokWS t) :
    tokenize (t ++ rest) = t :: tokenize rest := by
  induction t with
  | nil => exact absurd rfl ht
  | cons c t ih =>
    rcases t with _ | ⟨c2, t2⟩
    · rw [List.singleton_append, tokenize]
      rcases h : tokenize rest with _ | ⟨u, ts⟩
      · rfl
      · rcases u with _ | ⟨d, u⟩
        · exact absurd rfl (tokenize_ne_nil rest [] (h ▸ List.mem_cons_self _ _))
        · dsimp only
          have hne : tokWS (d :: u) ≠ tokWS [c] := hhead (d :: u) (by rw [h]; rfl)
          rw [if_neg (by simpa [tokWS] using fun e => hne e.symm)]
    · have hc2 : isWS c2 = isWS c := hh c2 (List.mem_cons_of_mem _ (List.mem_cons_self _ _))
      have hh2 : homogTok (c2 :: t2) := by
        intro x hx
        have := hh x (List.mem_cons_of_mem _ hx)
        simp only [tokWS] at this ⊢
        rw [this, hc2]
      have hrw : tokenize (c2 :: t2 ++ rest) = (c2 :: t2) :: tokenize rest := by
        refine ih (by simp) hh2 (fun u hu => ?_)
        have := hhead u hu
        simp only [tokWS] at this ⊢
        rw [hc2]
        exact this
      rw [List.cons_append, tokenize, hrw]
      dsimp only
      rw [if_pos hc2.symm]

theorem tokenize_flatten_good (ts : List (List Char)) (h : goodTokens ts) :
    tokenize ts.flatten = ts := by
  induction ts with
  | nil => rfl
  | cons t ts ih =>
    have hts := goodTokens_tail h
    have hrec := ih hts
    rw [List.flatten_cons]
    have hgt := h.1 t (List.mem_cons_self _ _)
    refine (tokenize_token_append t ts.flatten hgt.1 hgt.2 ?_).trans (by rw [hrec])
    intro u hu
    rw [hrec] at hu
    rcases ts with _ | ⟨v, ts⟩
    · simp at hu
    · simp only [List.head?_cons, Option.mem_def, Option.some.injEq] at hu
      have hvc : tokWS t ≠ tokWS v := (List.chain'_cons'.mp h.2).1 v rfl
      rw [hu] at hvc
      exact fun e => hvc e.symm

theorem dropWhile_append_allWS (t r : List Char) (h : ∀ c ∈ t, isWS c = true) :
    List.dropWhile isWS (t ++ r) = List.dropWhile isWS r := by
  induction t with
  | nil => rfl
  | cons c t ih =>
    rw [List.cons_append, List.dropWhile_cons, if_pos (h c (List.mem_cons_self _ _))]
    exact ih (fun x hx => h x (List.mem_cons_of_mem _ hx))

theorem dropWhile_flatten_good (ts : List (List Char)) (h : ∀ t ∈ ts, goodTok t) :
    List.dropWhile isWS ts.flatten = (ts.dropWhile tokWS).flatten := by
  induction ts with
  | nil => rfl
  | cons t ts ih =>
    have hgt := h t (List.mem_cons_self _ _)
    rw [List.flatten_cons, List.dropWhile_cons]
    by_cases hw : tokWS t = true
    · rw [if_pos hw]
      rw [dropWhile_append_allWS t ts.flatten (fun c hc => (hgt.2 c hc).trans hw)]
      exact ih (fun u hu => h u (List.mem_cons_of_mem _ hu))
    · rw [if_neg hw]
      rcases t with _ | ⟨c, t⟩
      · exact absurd rfl hgt.1
      · have hc : isWS c = false := by
          have := hgt.2 c (List.mem_cons_self _ _)
          simp only [tokWS] at this hw ⊢
          simpa [this] using hw
        rw [List.cons_append, List.dropWhile_cons, if_neg (by simp [hc])]
        rfl

theorem dropWhile_congr_mem {α : Type} (p q : α → Bool) (l : List α)
    (h : ∀ x ∈ l, p x = q x) : l.dropWhile p = l.dropWhile q := by
  induction l with
  | nil => rfl
  | cons a l ih =>
    rw [List.dropWhile_cons, List.dropWhile_cons, h a (List.mem_cons_self _ _)]
    split
    · exact ih (fun x hx => h x (List.mem_cons_of_mem _ hx))
    · rfl

theorem tokWS_reverse (t : List Char) (ht : t ≠ []) (hh : homogTok t) :
    tokWS t.reverse = tokWS t := by
  rcases hr : t.reverse with _ | ⟨c, r⟩
  · exact absurd (by simpa using congrArg List.reverse hr) ht
  · have hc : c ∈ t := by
      have : c ∈ t.reverse := by rw [hr]; exact List.mem_cons_self _ _
      simpa using this
    simpa [tokWS] using hh c hc

theorem goodTok_reverse {t : List Char} (h : goodTok t) : goodTok t.reverse := by
  refine ⟨by simpa using h.1, fun c hc => ?_⟩
  rw [tokWS_reverse t h.1 h.2]
  exact h.2 c (by simpa using hc)

theorem strip_flatten_good (ts : List (List Char)) (h : ∀ t ∈ ts, goodTok t) :
    strip ts.flatten = (stripTokens ts).flatten := by
  have ha : ∀ t ∈ ts.dropWhile tokWS, goodTok t :=
    fun t ht => h t ((List.dropWhile_suffix tokWS).sublist.mem ht)
  have step1 : strip ts.flatten =
      (((ts.dropWhile tokWS).flatten.reverse.dropWhile isWS)).reverse := by
    rw [strip, dropWhile_flatten_good ts h]
  set a := ts.dropWhile tokWS with hadef
  have hb : ∀ u ∈ a.reverse.map List.reverse, goodTok u := by
    intro u hu
    simp only [List.mem_map, List.mem_reverse] at hu
    obtain ⟨t, htmem, rfl⟩ := hu
    exact goodTok_reverse (ha t htmem)
  have step2 : a.flatten.reverse = (a.reverse.map List.reverse).flatten := by
    rw [List.reverse_flatten, List.map_reverse]
  have step3 : List.dropWhile isWS (a.reverse.map List.reverse).flatten =
      ((a.reverse.map List.reverse).dropWhile tokWS).flatten :=
    dropWhile_flatten_good _ hb
  have step4 : (a.reverse.map List.reverse).dropWhile tokWS =
      (a.reverse.dropWhile tokWS).map List.reverse := by
    rw [List.dropWhile_map]
    congr 1
    refine dropWhile_congr_mem _ _ _ (fun t htmem => ?_)
    have hgt : goodTok t := ha t (by simpa using htmem)
    exact tokWS_reverse t hgt.1 hgt.2
  rw [step1, step2, step3, step4]
  rw [stripTokens, ← hadef]
  set q := a.reverse.dropWhile tokWS with hqdef
  rw [List.reverse_flatten, List.map_map]
  have : (List.reverse ∘ List.reverse : List Char → List Char) = id := by
    funext x; simp
  rw [this, List.map_id]

theorem stripTokens_infixOf (ts : List (List Char)) : stripTokens ts <:+: ts := by
  have h1 : (ts.dropWhile tokWS).reverse.dropWhile tokWS <:+ (ts.dropWhile tokWS).reverse :=
    List.dropWhile_suffix tokWS
  have h2 : stripTokens ts <+: ts.dropWhile tokWS := by
    rw [← List.reverse_suffix]
    simpa [stripTokens] using h1
  exact h2.isInfix.trans (List.dropWhile_suffix tokWS).isInfix

theorem goodTokens_infixOf {ts l : List (List Char)} (h : goodTokens ts)
    (hinf : l <:+: ts) : goodTokens l :=
  ⟨fun t ht => h.1 t (hinf.sublist.mem ht), List.Chain'.infix h.2 hinf⟩

theorem filter_dropWhile_disjoint {α : Type} (p q : α → Bool) (l : List α)
    (h : ∀ x, q x = true → p x = false) :
    List.filter p (l.dropWhile q) = List.filter p l := by
  induction l with
  | nil => rfl
  | cons a l ih =>
    rw [List.dropWhile_cons]
    by_cases hq : q a = true
    · rw [if_pos hq, ih, List.filter_cons, if_neg (by simp [h a hq])]
    · rw [if_neg hq]

theorem filter_stripTokens (ts : List (List Char)) :
    (stripTokens ts).filter (fun t => !tokWS t) = ts.filter (fun t => !tokWS t) := by
  have hdrop : ∀ x : List Char, tokWS x = true → (!tokWS x) = false := by
    intro x hx; simp [hx]
  rw [stripTokens, List.filter_reverse,
    filter_dropWhile_disjoint _ tokWS _ hdrop, List.filter_reverse, List.reverse_reverse,
    filter_dropWhile_disjoint _ tokWS _ hdrop]

/-! ## Wrap-loop lemmas -/

theorem wrapLoop_flatten (w : List Char → ℚ) (maxW : ℚ) (ts : List (List Char)) :
    ∀ curr cw, (wrapLoop w maxW ts curr cw).flatten = curr ++ ts := by
  induction ts with
  | nil =>
    intro curr cw
    rw [wrapLoop]
    split
    · simp [*]
    · simp
  | cons t ts ih =>
    intro curr cw
    rw [wrapLoop]
    by_cases hc : curr = []
    · rw [if_pos hc, ih]
      simp [hc]
    · rw [if_neg hc]
      by_cases hfit : cw + w t ≤ maxW
      · rw [if_pos hfit, ih]
        simp
      · rw [if_neg hfit]
        rw [List.flatten_cons, ih]
        simp

theorem wrapLoop_mem_infixOf (w : List Char → ℚ) (maxW : ℚ) (ts : List (List Char)) :
    ∀ curr cw seg, seg ∈ wrapLoop w maxW ts curr cw → seg <:+: curr ++ ts := by
  induction ts with
  | nil =>
    intro curr cw seg hseg
    rw [wrapLoop] at hseg
    split at hseg
    · simp at hseg
    · simp at hseg
      simp [hseg]
  | cons t ts ih =>
    intro curr cw seg hseg
    rw [wrapLoop] at hseg
    by_cases hc : curr = []
    · rw [if_pos hc] at hseg
      have := ih [t] (w t) seg hseg
      simpa [hc] using this
    · rw [if_neg hc] at hseg
      by_cases hfit : cw + w t ≤ maxW
      · rw [if_pos hfit] at hseg
        have := ih (curr ++ [t]) (cw + w t) seg hseg
        simpa using this
      · rw [if_neg hfit] at hseg
        rcases List.mem_cons.mp hseg with rfl | hmem
        · exact ⟨[], t :: ts, by simp⟩
        · have htail := ih [t] (w t) seg hmem
          simp only [List.singleton_append] at htail
          exact htail.trans (List.suffix_append curr (t :: ts)).isInfix

theorem head?_dropWhile_ws (l : List Char) :
    ∀ c, (l.dropWhile isWS).head? = some c → isWS c = false := by
  induction l with
  | nil => intro c hc; simp at hc
  | cons a l ih =>
    intro c hc
    rw [List.dropWhile_cons] at hc
    by_cases ha : isWS a = true
    · rw [if_pos ha] at hc
      exact ih c hc
    · rw [if_neg ha] at hc
      simp only [List.head?_cons, Option.some.injEq] at hc
      rw [← hc]
      simpa using ha

theorem strip_getLast_not_ws (l : List Char) :
    ∀ c, (strip l).getLast? = some c → isWS c = false := by
  intro c hc
  rw [strip, List.getLast?_reverse] at hc
  exact head?_dropWhile_ws _ c hc

theorem strip_head_not_ws (l : List Char) :
    ∀ c, (strip l).head? = some c → isWS c = false := by
  intro c hc
  rw [strip, List.head?_reverse] at hc
  have hsfx : List.dropWhile isWS ((List.dropWhile isWS l).reverse) <:+
      (List.dropWhile isWS l).reverse := List.dropWhile_suffix isWS
  obtain ⟨pre, hpre⟩ := hsfx
  have : ((List.dropWhile isWS l).reverse).getLast? = some c := by
    rw [← hpre, List.getLast?_append, hc]
    rfl
  rw [List.getLast?_reverse] at this
  exact head?_dropWhile_ws _ c this

/-! ## Claims C1, C2, C10: the word-wrap contract -/

/-- Claim C1 (counterexample).  On the line `a***b` (asterisks standing for
three spaces, each character one unit wide) at `max_width = 2`, the source
flushes on the overflowing whitespace run, producing a spurious empty middle
line, whereas the claim's rule (whitespace always accepted) would merge the
whole line and return it unsplit.  So the wrap loop does not implement the
claimed accumulation rule. -/
theorem wrapWhitespaceCounterexample :
    wrapLineToWidth lenW txtC1 2 = [['a'], [], ['b']]
    ∧ wrapLineSpecC1 lenW txtC1 2 = [['a'], ['b']]
    ∧ wrapLineToWidth lenW txtC1 2 ≠ wrapLineSpecC1 lenW txtC1 2 := by
  have h1 : wrapLineToWidth lenW txtC1 2 = [['a'], [], ['b']] := by
    norm_num +decide [wrapLineToWidth, wrapLoop, tokenize, lenW, txtC1, strip, isWS]
  have h2 : wrapLineSpecC1 lenW txtC1 2 = [['a'], ['b']] := by
    norm_num +decide [wrapLineSpecC1, wrapLoopSpecC1, tokenize, lenW, txtC1, strip, isWS,
      tokWS]
  refine ⟨h1, h2, ?_⟩
  rw [h1, h2]
  decide

theorem foldl_wrapStep (w : List Char → ℚ) (maxW : ℚ) (ts : List (List Char)) :
    ∀ lines curr cw,
      (if (ts.foldl (wrapStepAmended w maxW) (lines, curr, cw)).2.1 = []
       then (ts.foldl (wrapStepAmended w maxW) (lines, curr, cw)).1
       else (ts.foldl (wrapStepAmended w maxW) (lines, curr, cw)).1
            ++ [(ts.foldl (wrapStepAmended w maxW) (lines, curr, cw)).2.1])
      = lines ++ wrapLoop w maxW ts curr cw := by
  induction ts with
  | nil =>
    intro lines curr cw
    rw [List.foldl_nil, wrapLoop]
    by_cases hc : curr = []
    · simp [hc]
    · simp [hc]
  | cons t ts ih =>
    intro lines curr cw
    rw [List.foldl_cons, wrapLoop, wrapStepAmended]
    by_cases hc : curr = []
    · rw [if_pos hc, if_pos hc, ih]
    · rw [if_neg hc, if_neg hc]
      by_cases hfit : cw + w t ≤ maxW
      · rw [if_pos hfit, if_pos hfit, ih]
      · rw [if_neg hfit, if_neg hfit, ih]
        simp

/-- Claim C1 (amended).  The wrap loop accumulates a token into the current
candidate line exactly when it is the first token of that line or
`current_width + token_width <= max_width`; every other token — whitespace
or not — flushes the stripped candidate line and starts a new one with that
token.  Stated as: the source wrap equals the amended fold-based
description for every width measure, input line and maximum width. -/
theorem wrapMatchesAmendedC1 (w : List Char → ℚ) (text : List Char) (maxW : ℚ) :
    wrapLineToWidth w text maxW = wrapLineAmendedC1 w text maxW := by
  rw [wrapLineToWidth, wrapLineAmendedC1]
  by_cases htok : tokenize text = []
  · rw [if_pos htok, if_pos htok]
  · rw [if_neg htok, if_neg htok]
    have hfold := foldl_wrapStep w maxW (tokenize text) [] [] 0
    rw [List.nil_append] at hfold
    simp only [hfold]

/-- Claim C2.  If wrapping produces exactly one output line, that line is
the input text unchanged (leading/trailing whitespace preserved); if it
produces two or more lines, no output line starts or ends with a whitespace
character. -/
theorem wrapTrimBehavior (w : List Char → ℚ) (text : List Char) (maxW : ℚ) :
    ((wrapLineToWidth w text maxW).length = 1 → wrapLineToWidth w text maxW = [text])
    ∧ (2 ≤ (wrapLineToWidth w text maxW).length →
        ∀ l ∈ wrapLineToWidth w text maxW,
          (∀ c, l.head? = some c → isWS c = false) ∧
          (∀ c, l.getLast? = some c → isWS c = false)) := by
  rw [wrapLineToWidth]
  by_cases htok : tokenize text = []
  · rw [if_pos htok]
    have htext : text = [] := by
      have := tokenize_flatten text
      rw [htok] at this
      exact this.symm
    constructor
    · intro _
      rw [htext]
    · intro hlen
      simp at hlen
  · rw [if_neg htok]
    by_cases hlen1 :
        ((wrapLoop w maxW (tokenize text) [] 0).map (fun seg => strip seg.flatten)).length = 1
    · rw [if_pos hlen1]
      refine ⟨fun _ => rfl, fun hlen => ?_⟩
      simp at hlen
    · rw [if_neg hlen1]
      by_cases hnil :
          (wrapLoop w maxW (tokenize text) [] 0).map (fun seg => strip seg.flatten) = []
      · exfalso
        have hloopnil : wrapLoop w maxW (tokenize text) [] 0 = [] :=
          List.map_eq_nil_iff.mp hnil
        have := wrapLoop_flatten w maxW (tokenize text) [] 0
        rw [hloopnil] at this
        simp at this
        exact htok this
      · rw [if_neg hnil]
        refine ⟨fun h1 => absurd h1 hlen1, fun _ l hl => ?_⟩
        simp only [List.mem_map] at hl
        obtain ⟨seg, _, rfl⟩ := hl
        exact ⟨strip_head_not_ws _, strip_getLast_not_ws _⟩

/-- Claim C10.  Word wrap never splits a non-whitespace token: flattening
the per-line word sequences of the output recovers exactly the word sequence
of the input, for every width measure, input line and maximum width. -/
theorem wrapPreservesWords (w : List Char → ℚ) (text : List Char) (maxW : ℚ) :
    ((wrapLineToWidth w text maxW).map nonWSTokens).flatten = nonWSTokens text := by
  rw [wrapLineToWidth]
  by_cases htok : tokenize text = []
  · rw [if_pos htok]
    simp [nonWSTokens, htok, tokenize]
  · rw [if_neg htok]
    have hkey :
        (((wrapLoop w maxW (tokenize text) [] 0).map
            (fun seg => strip seg.flatten)).map nonWSTokens).flatten
          = nonWSTokens text := by
      rw [List.map_map]
      have hgood : goodTokens (tokenize text) := goodTokens_tokenize text
      have hmapeq :
          (wrapLoop w maxW (tokenize text) [] 0).map (nonWSTokens ∘ fun seg => strip seg.flatten)
            = (wrapLoop w maxW (tokenize text) [] 0).map
                (fun seg => seg.filter (fun t => !tokWS t)) := by
        refine List.map_congr_left (fun seg hseg => ?_)
        have hinf : seg <:+: tokenize text := by
          have := wrapLoop_mem_infixOf w maxW (tokenize text) [] 0 seg hseg
          simpa using this
        have hsegGood : goodTokens seg := goodTokens_infixOf hgood hinf
        have hstripGood : goodTokens (stripTokens seg) :=
          goodTokens_infixOf hsegGood (stripTokens_infixOf seg)
        show nonWSTokens (strip seg.flatten) = seg.filter (fun t => !tokWS t)
        rw [nonWSTokens, strip_flatten_good seg hsegGood.1,
          tokenize_flatten_good _ hstripGood, filter_stripTokens]
      rw [hmapeq, ← List.filter_flatten, wrapLoop_flatten]
      rw [List.nil_append]
      rfl
    by_cases hlen1 :
        ((wrapLoop w maxW (tokenize text) [] 0).map (fun seg => strip seg.flatten)).length = 1
    · rw [if_pos hlen1]
      simp
    · rw [if_neg hlen1]
      by_cases hnil :
          (wrapLoop w maxW (tokenize text) [] 0).map (fun seg => strip seg.flatten) = []
      · exfalso
        have hloopnil : wrapLoop w maxW (tokenize text) [] 0 = [] :=
          List.map_eq_nil_iff.mp hnil
        have := wrapLoop_flatten w maxW (tokenize text) [] 0
        rw [hloopnil] at this
        simp at this
        exact htok this
      · rw [if_neg hnil]
        exact hkey

/-- Claim C2 (witness): a line with leading and trailing spaces that fits is
returned verbatim, and a letter of a wrapped two-word line is indeed not
whitespace, obtained from the trim statement at concrete inputs. -/
theorem wrapTrimBehavior_witness :
    wrapLineToWidth lenW txtC2a 100 = [txtC2a] ∧ isWS 'a' = false :=
  ⟨(wrapTrimBehavior lenW txtC2a 100).1
     (by norm_num +decide [wrapLineToWidth, wrapLoop, tokenize, lenW, txtC2a, strip, isWS]),
   ((wrapTrimBehavior lenW txtC2b 2).2
     (by norm_num +decide [wrapLineToWidth, wrapLoop, tokenize, lenW, txtC2b, strip, isWS])
     ['a', 'a']
     (by norm_num +decide [wrapLineToWidth, wrapLoop, tokenize, lenW, txtC2b, strip, isWS])).1
     'a' (by decide)⟩

/-! ## Run segmentation lemmas and claims C3, C6, C7 -/

theorem runChars_append (rs : List TextRun) (r : TextRun) :
    runChars (rs ++ [r]) = runChars rs ++ r.text.map (fun c => (c, r.tf)) := by
  simp [runChars]

theorem runChars_flush (rs : List TextRun) (curr : List Char) (tfp : ℕ) :
    runChars (if curr = [] then rs else rs ++ [⟨curr, tfp⟩]) =
      runChars rs ++ curr.map (fun c => (c, tfp)) := by
  split
  · simp [*]
  · rw [runChars_append]

theorem splitLoop_chars (env : FontEnv) (cs : List Char) :
    ∀ runs curr, runChars (splitLoop env cs runs curr) =
      runChars runs ++ curr.map (fun c => (c, env.primaryTf))
        ++ cs.map (fun c => (c, charTf env c)) := by
  induction cs with
  | nil =>
    intro runs curr
    rw [splitLoop, runChars_flush]
    simp
  | cons c cs ih =>
    intro runs curr
    rw [splitLoop]
    by_cases hs : env.supports env.primaryTf c
    · rw [if_pos hs, ih]
      have hct : charTf env c = env.primaryTf := by rw [charTf, if_pos hs]
      simp [hct]
    · rw [if_neg hs]
      dsimp only
      have hct : charTf env c = getFallbackTypefaceForGlyph env c := by
        rw [charTf, if_neg hs]
      set runs1 := (if curr = [] then runs
          else runs ++ [(⟨curr, env.primaryTf⟩ : TextRun)]) with hruns1
      rcases hlast : runs1.getLast? with _ | last
      · dsimp only
        rw [ih, runChars_append]
        have hnil : runs1 = [] := List.getLast?_eq_none_iff.mp hlast
        have hflush : runChars runs1 =
            runChars runs ++ curr.map (fun ch => (ch, env.primaryTf)) := by
          rw [hruns1, runChars_flush]
        rw [hnil] at hflush
        have h0 : runChars runs ++ curr.map (fun ch => (ch, env.primaryTf)) = [] := by
          rw [← hflush]
          rfl
        rcases List.append_eq_nil.mp h0 with ⟨hr, hc2⟩
        rw [hnil, hr, hc2]
        simp [runChars, hct]
      · dsimp only
        have hne : runs1 ≠ [] := by
          intro he
          rw [he] at hlast
          simp at hlast
        have hdec : runs1.dropLast ++ [last] = runs1 := by
          have hh := List.dropLast_append_getLast hne
          rw [List.getLast?_eq_getLast _ hne, Option.some.injEq] at hlast
          rw [hlast] at hh
          exact hh
        have hflush : runChars runs1 =
            runChars runs ++ curr.map (fun ch => (ch, env.primaryTf)) := by
          rw [hruns1, runChars_flush]
        by_cases htf : last.tf = getFallbackTypefaceForGlyph env c
        · rw [if_pos htf, ih, runChars_append]
          have hlasttext :
              (last.text ++ [c]).map
                  (fun x => (x, getFallbackTypefaceForGlyph env c)) =
                last.text.map (fun x => (x, last.tf)) ++ [(c, charTf env c)] := by
            rw [List.map_append, htf, hct]
            rfl
          rw [hlasttext]
          have hback : runChars runs1.dropLast
              ++ last.text.map (fun x => (x, last.tf)) = runChars runs1 := by
            rw [← hdec, runChars_append]
            simp [hdec]
          calc runChars runs1.dropLast
                ++ (last.text.map (fun x => (x, last.tf)) ++ [(c, charTf env c)])
                ++ List.map (fun ch => (ch, env.primaryTf)) []
                ++ cs.map (fun ch => (ch, charTf env ch))
              = runChars runs1 ++ [(c, charTf env c)]
                ++ cs.map (fun ch => (ch, charTf env ch)) := by
                rw [← hback]
                simp
            _ = runChars runs ++ curr.map (fun ch => (ch, env.primaryTf))
                ++ (c :: cs).map (fun ch => (ch, charTf env ch)) := by
                rw [hflush]
                simp
        · rw [if_neg htf, ih, runChars_append, hflush]
          simp [hct]

/-- Claim C6.  Concatenating the texts of the runs produced by
`_split_line_in_runs`, in order, recovers exactly the input line, for every
font environment (whatever fallbacks were assigned). -/
theorem splitRunsRoundTrip (env : FontEnv) (line : List Char) :
    ((splitLineInRuns env line).map TextRun.text).flatten = line := by
  have h := splitLoop_chars env line [] []
  rw [splitLineInRuns]
  have htexts : ∀ rs : List TextRun,
      (rs.map TextRun.text).flatten = (runChars rs).map Prod.fst := by
    intro rs
    rw [runChars, List.map_flatten, List.map_map]
    congr 1
    refine List.map_congr_left (fun r _ => ?_)
    have hid : (Prod.fst ∘ fun c => (c, r.tf)) = (id : Char → Char) := by
      funext x
      rfl
    simp only [Function.comp_apply, List.map_map]
    rw [hid, List.map_id]
  rw [htexts, h]
  have hid2 : (Prod.fst ∘ fun c => (c, charTf env c)) = (id : Char → Char) := by
    funext x
    rfl
  simp only [runChars, List.map_nil, List.flatten_nil, List.nil_append, List.map_map, hid2,
    List.map_id]

/-- Claim C3 (counterexample).  The two codepoints of the single grapheme
cluster e + U+0301 (combining acute accent) are split by
`_split_line_in_runs` into two runs with different resolved fonts: the
primary typeface supports the base letter but not the accent, and the
accent goes to the fallback typeface.  So segmentation does not keep
multi-codepoint grapheme clusters atomic. -/
theorem graphemeSplitCounterexample :
    splitLineInRuns envC3 clusterC3 =
      [⟨['e'], 0⟩, ⟨[Char.ofNat 769], 7⟩]
    ∧ (TextRun.mk ['e'] 0).tf ≠ (TextRun.mk [Char.ofNat 769] 7).tf := by
  refine ⟨by decide, by decide⟩

/-- Claim C3 (amended).  Run segmentation operates on individual Unicode
codepoints, not grapheme clusters: each codepoint is assigned its own
typeface — the primary typeface when it supports that codepoint, the
per-codepoint fallback resolution otherwise — and the runs are exactly the
input codepoints in order, each carrying its individually resolved
typeface (adjacent codepoints with the same resolved font share a run). -/
theorem splitRunsPerCodepoint (env : FontEnv) (line : List Char) :
    runChars (splitLineInRuns env line) =
      line.map (fun c => (c, charTf env c)) := by
  have h := splitLoop_chars env line [] []
  rw [splitLineInRuns, h]
  simp [runChars]

/-- Claim C7.  The fallback resolution is total: when no configured fallback
typeface supports a glyph and the system lookup finds nothing,
`_get_fallback_font_for_glyph` returns the primary font rather than
raising, so shaping never fails on an unsupported glyph. -/
theorem fallbackTotality (env : FontEnv) (c : Char)
    (hfb : ∀ tf ∈ env.fallbacks, env.supports tf c = false)
    (hsys : env.system c = none) :
    getFallbackTypefaceForGlyph env c = env.primaryTf := by
  rw [getFallbackTypefaceForGlyph]
  rw [List.find?_eq_none.mpr (fun tf htf => by simp [hfb tf htf])]
  rw [hsys]

/-- Claim C7 (witness): in an environment where nothing supports the glyph,
the resolution returns the primary typeface. -/
theorem fallbackTotality_witness :
    getFallbackTypefaceForGlyph envC7 'q' = envC7.primaryTf :=
  fallbackTotality envC7 'q' (by decide) rfl

/-! ## Claim C4: style inheritance -/

/-- Claim C4.  For every field: an explicitly set field keeps the raw value
regardless of the parent; an unset inheritable field takes the parent's
computed value when a parent exists; otherwise the computed value is the
field's declared default (assuming, as `StyleProperty` guarantees, that an
unset raw field holds its default); and a non-inheritable field always
equals the raw value. -/
theorem styleInheritance (raw : ℕ → StyleProperty) (parent : Option (ℕ → StyleProperty))
    (deflt : ℕ → ℤ) (f : ℕ)
    (hdef : (raw f).wasSet = false → (raw f).value = deflt f) :
    ((raw f).wasSet = true → (computeStyles raw parent f).value = (raw f).value)
    ∧ ((raw f).wasSet = false → (raw f).inheritable = true →
        ∀ p, parent = some p → (computeStyles raw parent f).value = (p f).value)
    ∧ ((raw f).wasSet = false → ((raw f).inheritable = false ∨ parent = none) →
        (computeStyles raw parent f).value = deflt f)
    ∧ ((raw f).inheritable = false →
        (computeStyles raw parent f).value = (raw f).value) := by
  rcases parent with _ | p
  · refine ⟨fun _ => rfl, fun _ _ p hp => by simp at hp, fun hset _ => ?_, fun _ => rfl⟩
    rw [computeStyles]
    exact hdef hset
  · refine ⟨fun hset => ?_, fun hset hinh q hq => ?_, fun hset hcase => ?_, fun hinh => ?_⟩
    · rw [computeStyles]
      dsimp only
      by_cases hinh : (raw f).inheritable = false
      · rw [if_pos hinh]
      · rw [if_neg hinh, if_pos hset]
    · simp only [Option.some.injEq] at hq
      subst hq
      rw [computeStyles]
      dsimp only
      have hinh2 : ¬(raw f).inheritable = false := by simp [hinh]
      rw [if_neg hinh2, if_neg (by simp [hset])]
    · rcases hcase with hinh | hnone
      · rw [computeStyles]
        dsimp only
        rw [if_pos hinh]
        exact hdef hset
      · simp at hnone
    · rw [computeStyles]
      dsimp only
      rw [if_pos hinh]

/-- Claim C4 (witness): with every field unset, inheritable, default 5, and
a parent whose computed value is 9, the child's computed value is the
parent's 9. -/
theorem styleInheritance_witness :
    (rawC4 0).wasSet = false ∧ (computeStyles rawC4 (some parentC4) 0).value = (parentC4 0).value :=
  ⟨rfl,
   (styleInheritance rawC4 (some parentC4) (fun _ => 5) 0 (fun _ => rfl)).2.1 rfl rfl
     parentC4 rfl⟩

/-! ## Claim C5: percent size against a content-dependent parent -/

/-- Claim C5.  A node whose width (or height) style is a percent size and
whose parent is absent, or whose parent's size style on the same axis is
content-dependent (unset, fit-content or auto), resolves to the designated
`ValueError` during size resolution (provided no forced size short-circuits
the style-based path). -/
theorem percentNeedsDeterminateParent (n : SNode) (ax : Axis)
    (hforced : n.forcedOn ax = none) (p : ℚ)
    (hstyle : n.styleOn ax = some ⟨SizeMode.percent, p⟩)
    (hparent : n.parentOf = none ∨
      ∃ par, n.parentOf = some par ∧ contentDependent (par.styleOn ax) = true) :
    isSizeError (resolveAxis n ax) = true := by
  rcases n with ⟨ws, hs, pl, pr, pt, pb, bw, fw, fh, iw, ih, bg, par⟩
  rcases ax with _ | _
  · simp only [SNode.forcedOn] at hforced
    simp only [SNode.styleOn, SNode.widthStyle] at hstyle
    simp only [SNode.parentOf] at hparent
    rw [resolveAxis, resolveWidth.eq_def, hforced, hstyle]
    dsimp only
    rcases hparent with hnone | ⟨q, hq, hdep⟩
    · rw [hnone]
      rfl
    · rw [hq]
      dsimp only
      rw [if_pos (show contentDependent q.widthStyle = true from hdep)]
      rfl
  · simp only [SNode.forcedOn] at hforced
    simp only [SNode.styleOn, SNode.heightStyle] at hstyle
    simp only [SNode.parentOf] at hparent
    rw [resolveAxis, resolveHeight.eq_def, hforced, hstyle]
    dsimp only
    rcases hparent with hnone | ⟨q, hq, hdep⟩
    · rw [hnone]
      rfl
    · rw [hq]
      dsimp only
      rw [if_pos (show contentDependent q.heightStyle = true from hdep)]
      rfl

/-- Claim C5 (witness): a node with width 50 percent inside a fit-content
parent resolves to the error. -/
theorem percentNeedsDeterminateParent_witness :
    isSizeError (resolveAxis nodeC5 Axis.width) = true :=
  percentNeedsDeterminateParent nodeC5 Axis.width rfl 50 rfl
    (Or.inr ⟨parentC5, rfl, rfl⟩)

/-! ## Claim C8: builders fail fast -/

/-- Claim C8.  `padding` and `margin` raise `TypeError` immediately for any
argument count other than 1, 2 or 4; `border_radius` likewise; and
`aspect_ratio` raises `ValueError` immediately for a zero or negative
numeric ratio.  All checks happen at the builder call, not at render
time. -/
theorem buildersFailFast :
    (∀ args : List ℚ, ¬(args.length = 1 ∨ args.length = 2 ∨ args.length = 4) →
      paddingBuilder args = .error .typeError)
    ∧ (∀ args : List ℚ, ¬(args.length = 1 ∨ args.length = 2 ∨ args.length = 4) →
      marginBuilder args = .error .typeError)
    ∧ (∀ args : List RadiusArg, ¬(args.length = 1 ∨ args.length = 2 ∨ args.length = 4) →
      borderRadiusBuilder args = .error .typeError)
    ∧ (∀ q : ℚ, q ≤ 0 → aspectRatioBuilder (.num q) = .error .valueError) := by
  refine ⟨fun args h => ?_, fun args h => ?_, fun args h => ?_, fun q hq => ?_⟩
  · rcases args with _ | ⟨a, _ | ⟨b, _ | ⟨c, _ | ⟨d, _ | ⟨e, rest⟩⟩⟩⟩⟩ <;>
      first
        | rfl
        | exact absurd (by simp) h
  · rcases args with _ | ⟨a, _ | ⟨b, _ | ⟨c, _ | ⟨d, _ | ⟨e, rest⟩⟩⟩⟩⟩ <;>
      first
        | rfl
        | exact absurd (by simp) h
  · rcases args with _ | ⟨a, _ | ⟨b, _ | ⟨c, _ | ⟨d, _ | ⟨e, rest⟩⟩⟩⟩⟩ <;>
      first
        | rfl
        | exact absurd (by simp) h
  · rw [aspectRatioBuilder, if_pos hq]

/-- Claim C8 (witness): concrete bad calls raise at once. -/
theorem buildersFailFast_witness :
    paddingBuilder [] = .error .typeError
    ∧ marginBuilder [1, 2, 3] = .error .typeError
    ∧ borderRadiusBuilder [.px 1, .px 2, .px 3] = .error .typeError
    ∧ aspectRatioBuilder (.num 0) = .error .valueError :=
  ⟨buildersFailFast.1 [] (by simp),
   buildersFailFast.2.1 [1, 2, 3] (by simp),
   buildersFailFast.2.2.1 [.px 1, .px 2, .px 3] (by simp),
   buildersFailFast.2.2.2 0 le_rfl⟩

/-! ## Claim C9: the translate-transform pass -/

theorem applyOffsetD_eq (d : TNodeData) (dx dy : ℚ) :
    applyOffsetD d dx dy = { d with offX := d.offX + dx, offY := d.offY + dy } := by
  rw [applyOffsetD]
  split
  · rename_i hz
    rcases hz with ⟨h1, h2⟩
    cases d
    simp [h1, h2]
  · rfl

theorem computeTranslateOffset_pct (p s : ℚ) :
    computeTranslateOffset (some (.pctStr p)) s = p / 100 * s := by
  rw [computeTranslateOffset]
  ring

mutual
theorem processChild_eq_spec :
    ∀ (t : TTree) (px py : ℚ), processChild px py t = specChild px py t
  | .node d f, px, py => by
    rcases hd : d.transform with _ | tv
    · rw [processChild, specChild, specLocal, hd]
      dsimp only
      rw [applyOffsetD_eq, processForest_eq_spec f px py]
      simp [hd]
    · rw [processChild, specChild, specLocal, hd]
      dsimp only
      have hx : computeTranslateOffset tv.1 d.boxW =
          (match tv.1 with
            | none => 0
            | some (.px v) => v
            | some (.pctStr p) => p / 100 * d.boxW
            | some .other => 0) := by
        rcases tv.1 with _ | v
        · rfl
        · rcases v with v | p | _
          · rfl
          · exact computeTranslateOffset_pct p d.boxW
          · rfl
      have hy : computeTranslateOffset tv.2 d.boxH =
          (match tv.2 with
            | none => 0
            | some (.px v) => v
            | some (.pctStr p) => p / 100 * d.boxH
            | some .other => 0) := by
        rcases tv.2 with _ | v
        · rfl
        · rcases v with v | p | _
          · rfl
          · exact computeTranslateOffset_pct p d.boxH
          · rfl
      rw [applyOffsetD_eq,
        processForest_eq_spec f (px + computeTranslateOffset tv.1 d.boxW)
          (py + computeTranslateOffset tv.2 d.boxH), hx, hy]
      simp [hd]
theorem processForest_eq_spec :
    ∀ (f : TForest) (px py : ℚ), processForest px py f = specForest px py f
  | .nil, _, _ => rfl
  | .cons t f, px, py => by
    rw [processForest, specForest, processChild_eq_spec t px py,
      processForest_eq_spec f px py]
end

/-- Claim C9.  The translate pass applied after layout and fixed-position
correction matches its specification: every node below the root ends with
its stored offset increased by the sum, along the path from the root down to
the node, of each ancestor's own resolved translate — where a numeric
component contributes exactly its value, a percent component contributes
p/100 times that node's own border-box dimension on the axis, and a missing
component contributes nothing — so each resolved offset is added to the node
and, through the accumulator, to all of its descendants. -/
theorem translateTransformMatchesSpec (t : TTree) :
    applyTranslateTransform t = specTranslateTransform t := by
  rcases t with ⟨d, f⟩
  rw [applyTranslateTransform, specTranslateTransform, processForest_eq_spec f 0 0]

end Pictex
